import Mathlib

/-!
Verification of the bitboard engine of the Block-Game repository.

The 8x8 board is a 64-bit occupancy value; bit index = row * 8 + col
(src/include/board.hpp).  Machine integers are modelled as `Nat` together
with explicit `< 2 ^ 64` bounds where overflow or complement matters.
-/

namespace BlockGame

/-- `0x0101010101010101`, the first-column mask (`Board::COL_MASK`). -/
def BROADCAST : Nat := 0x0101010101010101

/-- `Board::FULL_BOARD`, all 64 bits set. -/
def FULL_BOARD : Nat := 0xFFFFFFFFFFFFFFFF

/-- `Board::ROW_MASK`, the first row. -/
def ROW_MASK : Nat := 0xFF

/-- `Board::rowMask`: mask of row `r` (`ROW_MASK << (row * 8)`). -/
def rowMask (r : Nat) : Nat := ROW_MASK <<< (r * 8)

/-- `Board::colMask`: mask of column `c` (`COL_MASK << col`). -/
def colMask (c : Nat) : Nat := BROADCAST <<< c

/-- `__builtin_popcountll` on a 64-bit value. -/
def popcount64 (n : Nat) : Nat := (List.range 64).countP fun k => n.testBit k

/-- The column-reduction chain of `Board::clearFullLines` (src/src/board.cpp):
`c &= c >> 8; c &= c >> 16; c &= c >> 32; c & 0xFF`.  Bit `j` indicates that
column `j` is entirely set. -/
def colIndicator (occ : Nat) : Nat :=
  let c1 := occ &&& (occ >>> 8)
  let c2 := c1 &&& (c1 >>> 16)
  let c3 := c2 &&& (c2 >>> 32)
  c3 &&& 0xFF

/-- The row-reduction chain of `Board::clearFullLines`:
`r &= r >> 1; r &= r >> 2; r &= r >> 4; r & kBroadcast`.  Bit `8*i` indicates
that row `i` is entirely set. -/
def rowIndicator (occ : Nat) : Nat :=
  let r1 := occ &&& (occ >>> 1)
  let r2 := r1 &&& (r1 >>> 2)
  let r3 := r2 &&& (r2 >>> 4)
  r3 &&& BROADCAST

/-- `Board::clearFullLines` (src/src/board.cpp lines 9-44): builds the
full-column and full-row indicator bytes against the pre-clear occupancy,
broadcasts them back to full masks by multiplication
(`col_ind * kBroadcast`, `row_ind * 255`), removes the union, and returns
the new occupancy together with `popcount(col_ind) + popcount(row_ind)`. -/
def clearFullLines (occ : Nat) : Nat × Nat :=
  let totalMask := colIndicator occ * BROADCAST ||| rowIndicator occ * 255
  (occ &&& (FULL_BOARD ^^^ totalMask),
   popcount64 (colIndicator occ) + popcount64 (rowIndicator occ))

/-- `Board::canPlace`: a mask fits iff it does not overlap the occupancy. -/
def canPlaceB (occ mask : Nat) : Bool := occ &&& mask == 0

/-- `Board::placeAndClear`: OR the piece in, then clear full lines; the pair
is (new occupancy, lines cleared). -/
def placeAndClear (occ mask : Nat) : Nat × Nat := clearFullLines (occ ||| mask)

/-- Row `r` is entirely set in `occ` (all eight cells of the row occupied). -/
def rowFull (occ r : Nat) : Bool :=
  occ.testBit (8 * r) && occ.testBit (8 * r + 1) && occ.testBit (8 * r + 2) &&
  occ.testBit (8 * r + 3) && occ.testBit (8 * r + 4) && occ.testBit (8 * r + 5) &&
  occ.testBit (8 * r + 6) && occ.testBit (8 * r + 7)

/-- Column `c` is entirely set in `occ` (all eight cells of the column occupied). -/
def colFull (occ c : Nat) : Bool :=
  occ.testBit c && occ.testBit (8 + c) && occ.testBit (16 + c) &&
  occ.testBit (24 + c) && occ.testBit (32 + c) && occ.testBit (40 + c) &&
  occ.testBit (48 + c) && occ.testBit (56 + c)

/-- Partial broadcast constant: the low `t` byte lanes each holding `0x01`. -/
def broadcastN : Nat → Nat
  | 0 => 0
  | t + 1 => broadcastN t + 2 ^ (8 * t)

/-- `createMask` (src/src/pieces.cpp): builds a piece bitmask from a pattern
string; rows are separated by "|", each X sets bit `row * 8 + col`. -/
def createMask (pattern : String) : Nat :=
  (pattern.toList.foldl
    (fun (st : Nat × Nat × Nat) ch =>
      if ch = '|' then (st.1, st.2.1 + 1, 0)
      else if ch = 'X' then
        (st.1 ||| (1 <<< ((st.2.1) * 8 + st.2.2)), st.2.1, st.2.2 + 1)
      else if ch = '.' then (st.1, st.2.1, st.2.2 + 1)
      else st)
    (0, 0, 0)).1

/-- `getWidth` (src/src/pieces.cpp): widest row of the pattern. -/
def getWidth (pattern : String) : Nat :=
  let st := pattern.toList.foldl
    (fun (st : Nat × Nat) ch =>
      if ch = '|' then (max st.1 st.2, 0)
      else if ch = 'X' ∨ ch = '.' then (st.1, st.2 + 1)
      else st)
    (0, 0)
  max st.1 st.2

/-- `getHeight` (src/src/pieces.cpp): one plus the number of row separators. -/
def getHeight (pattern : String) : Nat :=
  pattern.toList.foldl (fun h ch => if ch = '|' then h + 1 else h) 1

/-- The `Piece` record (src/include/pieces.hpp): base mask at the origin,
bounding-box width/height, and display name.  The precomputed
`PieceShiftTable` is represented functionally by `Piece.tableAt` below. -/
structure Piece where
  baseMask : Nat
  width : Nat
  height : Nat
  name : String
deriving DecidableEq

/-- One entry of the `PIECES` initializer:
`{createMask(p), getWidth(p), getHeight(p), name}`. -/
def mkPiece (pattern nm : String) : Piece :=
  ⟨createMask pattern, getWidth pattern, getHeight pattern, nm⟩

/-- The `PIECES` catalog (src/src/pieces.cpp lines 54-132), in source order. -/
def PIECES : List Piece := [
  mkPiece ("XX|XX") ("2x2 Square"),
  mkPiece ("XXX|XXX|XXX") ("3x3 Square"),
  mkPiece ("XX|XX|XX") ("2x3 Rectangle"),
  mkPiece ("XXX|XXX") ("3x2 Rectangle"),
  mkPiece ("XXX") ("3x1 Line"),
  mkPiece ("XXXX") ("4x1 Line"),
  mkPiece ("XXXXX") ("5x1 Line"),
  mkPiece ("X|X|X") ("1x3 Line"),
  mkPiece ("X|X|X|X") ("1x4 Line"),
  mkPiece ("X|X|X|X|X") ("1x5 Line"),
  mkPiece (".XX|XX.") ("S piece 0°"),
  mkPiece ("X.|XX|.X") ("S piece 90°"),
  mkPiece ("XX.|.XX") ("S piece Mirrored"),
  mkPiece (".X|XX|X.") ("S piece 90° Mirrored"),
  mkPiece ("XXX|.X.") ("T piece 0°"),
  mkPiece ("X.|XX|X.") ("T piece 90°"),
  mkPiece (".X.|XXX") ("T piece 180°"),
  mkPiece (".X|XX|.X") ("T piece 270°"),
  mkPiece ("XX|X.") ("Small Corner 0°"),
  mkPiece ("XX|.X") ("Small Corner 90°"),
  mkPiece (".X|XX") ("Small Corner 180°"),
  mkPiece ("X.|XX") ("Small Corner 270°"),
  mkPiece ("XXX|X..|X..") ("Large Corner 0°"),
  mkPiece ("XXX|..X|..X") ("Large Corner 90°"),
  mkPiece ("..X|..X|XXX") ("Large Corner 180°"),
  mkPiece ("X..|X..|XXX") ("Large Corner 270°"),
  mkPiece ("X.|X.|XX") ("L piece 0°"),
  mkPiece ("XXX|X..") ("L piece 90°"),
  mkPiece ("XX|.X|.X") ("L piece 180°"),
  mkPiece ("..X|XXX") ("L piece 270°"),
  mkPiece (".X|.X|XX") ("J piece 0°"),
  mkPiece ("X..|XXX") ("J piece 90°"),
  mkPiece ("XX|X.|X.") ("J piece 180°"),
  mkPiece ("XXX|..X") ("J piece 270°")]

/-- `NUM_PIECES = PIECE_COUNT` of the `PieceType` enum
(src/include/pieces.hpp): 2 squares + 2 rectangles + 6 lines + 6 * 4
rotations. -/
def NUM_PIECES : Nat := 34

/-- `getPiece(index)`: catalog lookup; totalized with a null piece for
out-of-range indices, which the program never exercises. -/
def getPiece (idx : Nat) : Piece := PIECES.getD idx ⟨0, 0, 0, ""⟩

/-- `shiftTable.maxRow = 8 - height`. -/
def Piece.maxRow (p : Piece) : Nat := 8 - p.height

/-- `shiftTable.maxCol = 8 - width`. -/
def Piece.maxCol (p : Piece) : Nat := 8 - p.width

/-- Modelled from the spec: the construction code populating
`PieceShiftTable.masks` is not present under src/ (only the declaration in
src/include/pieces.hpp); per the spec the entry for anchor `(row, col)` is
the base pattern shifted row-by-row to that anchor — bit `r*8+c` moves to
`(r+row)*8+(c+col)`, i.e. the whole mask is shifted by `row*8+col` — and the
zero sentinel when the anchor would push the bounding box outside the board. -/
def Piece.tableAt (p : Piece) (row col : Nat) : Nat :=
  if row ≤ p.maxRow ∧ col ≤ p.maxCol then p.baseMask <<< (row * 8 + col) else 0

/-- Modelled from the spec: `Piece::shiftToUnsafe` (used by
src/src/board.cpp and src/src/perft.cpp but not itself under src/) is the
unchecked table lookup `shiftTable.masks[row * 8 + col]`. -/
def Piece.shiftToUnsafe (p : Piece) (row col : Nat) : Nat := p.tableAt row col

/-- `Piece::shiftTo` (src/include/pieces.hpp): returns 0 when the anchor is
negative or beyond `maxRow`/`maxCol` (the unsigned-comparison trick),
otherwise the table entry. -/
def Piece.shiftTo (p : Piece) (row col : Int) : Nat :=
  if row < 0 || row > (p.maxRow : Int) || col < 0 || col > (p.maxCol : Int) then 0
  else p.tableAt row.toNat col.toNat

/-- `Board::getLegalMoves(const Piece&)` (src/src/board.cpp lines 62-74):
row-major scan over `[0, maxRow] x [0, maxCol]`, pushing
`(row, col, shiftToUnsafe(row, col))` whenever `canPlace` holds.  (The C++
`Move` additionally carries the piece's type tag; the modelled `Piece` record
has no type field, so moves are (row, col, mask) triples.) -/
def getLegalMoves (occ : Nat) (p : Piece) : List (Nat × Nat × Nat) :=
  (List.range (p.maxRow + 1)).flatMap fun row =>
    (List.range (p.maxCol + 1)).filterMap fun col =>
      let mask := p.shiftToUnsafe row col
      if canPlaceB occ mask then some (row, col, mask) else none

/-- `MoveGen::hasValidPlacement` (src/src/game.cpp lines 150-165): scans
anchors `[0, 8-height] x [0, 8-width]` and reports whether any placement of
the piece fits the board. -/
def hasValidPlacement (board : Nat) (p : Piece) : Bool :=
  (List.range (8 - p.height + 1)).any fun row =>
    (List.range (8 - p.width + 1)).any fun col =>
      canPlaceB board (p.shiftTo (row : Int) (col : Int))

/-- The `Game` state (src/include/game.hpp): board, 3-slot hand of piece
indices with parallel used-flags, score, turn counter, game-over flag.
The `std::mt19937` generator together with `uniform_int_distribution` is
abstracted as a stream `rng` of draws consumed at `rngCursor`, reduced
mod `NUM_PIECES` to a piece index. -/
structure Game where
  board : Nat
  hand : Fin 3 → Nat
  handUsed : Fin 3 → Bool
  score : Nat
  turnNumber : Nat
  gameOver : Bool
  rng : Nat → Nat
  rngCursor : Nat

/-- `Game::HAND_SIZE`. -/
def HAND_SIZE : Nat := 3

/-- Interpreting a C++ `int` hand index: in range iff `0 <= i < HAND_SIZE`. -/
def intIdx (i : Int) : Option (Fin 3) :=
  if h : 0 ≤ i ∧ i < 3 then some ⟨i.toNat, by omega⟩ else none

/-- `Game::canPlacePiece` (src/src/game.cpp): shift, reject the zero
out-of-bounds sentinel, then test overlap. -/
def Game.canPlacePiece (g : Game) (pieceIndex : Nat) (row col : Int) : Bool :=
  let mask := (getPiece pieceIndex).shiftTo row col
  if mask == 0 then false else canPlaceB g.board mask

/-- `Game::canPlace` (src/src/game.cpp lines 40-45): false on a bad or used
hand index, else delegate to `canPlacePiece` for the slot's piece. -/
def Game.canPlace (g : Game) (handIndex row col : Int) : Bool :=
  match intIdx handIndex with
  | none => false
  | some k => if g.handUsed k then false else g.canPlacePiece (g.hand k) row col

/-- `Game::hasLegalMoves` (src/src/game.cpp lines 79-89): some unused slot
has a valid placement. -/
def Game.hasLegalMoves (g : Game) : Bool :=
  (List.finRange 3).any fun i =>
    !g.handUsed i && hasValidPlacement g.board (getPiece (g.hand i))

/-- `Game::checkGameOver`: latches the game-over flag when no legal move
remains; never clears it. -/
def Game.checkGameOver (g : Game) : Game :=
  if g.hasLegalMoves then g else { g with gameOver := true }

/-- `Game::drawHand` (src/src/game.cpp lines 30-38): draw three fresh piece
indices, clear the used-flags, advance the turn counter, re-run game-over
detection. -/
def Game.drawHand (g : Game) : Game :=
  Game.checkGameOver
    { g with
      hand := fun i => g.rng (g.rngCursor + i.val) % NUM_PIECES
      handUsed := fun _ => false
      turnNumber := g.turnNumber + 1
      rngCursor := g.rngCursor + 3 }

/-- `Game::calculateClearScore` (src/src/game.cpp lines 139-141):
`linesCleared * linesCleared * 8`. -/
def Game.calculateClearScore (n : Nat) : Nat := n * n * 8

/-- `Game::placePiece` (src/src/game.cpp lines 101-127): no-op returning 0
when `canPlace` fails; otherwise place the mask, mark the slot used, clear
full lines, add the clear score, then either draw a fresh hand (all three
slots used) or re-run game-over detection. -/
def Game.placePiece (g : Game) (handIndex row col : Int) : Nat × Game :=
  if !g.canPlace handIndex row col then (0, g)
  else
    match intIdx handIndex with
    | none => (0, g)
    | some k =>
      let mask := (getPiece (g.hand k)).shiftTo row col
      let used1 := Function.update g.handUsed k true
      let cleared := clearFullLines (g.board ||| mask)
      let pts := Game.calculateClearScore cleared.2
      let g1 := { g with board := cleared.1, handUsed := used1, score := g.score + pts }
      if (List.finRange 3).all (fun j => used1 j) then (pts, g1.drawHand)
      else (pts, g1.checkGameOver)

/-- The `Move` record of src/include/game.hpp: hand index, anchor, mask. -/
structure Move where
  pieceIndex : Int
  row : Int
  col : Int
  mask : Nat

/-- `Game::makeMove` (src/src/game.cpp lines 92-99): rejects when the game is
over, the index is out of range, or the slot is used; otherwise defers to
`placePiece`. -/
def Game.makeMove (g : Game) (mv : Move) : Nat × Game :=
  match intIdx mv.pieceIndex with
  | none => (0, g)
  | some k =>
    if g.gameOver || g.handUsed k then (0, g)
    else g.placePiece mv.pieceIndex mv.row mv.col

/-- A concrete terminal state: full board, hand of three 2x2 squares. -/
def gTerm : Game :=
  { board := FULL_BOARD, hand := fun _ => 0, handUsed := fun _ => false,
    score := 17, turnNumber := 4, gameOver := true, rng := fun _ => 0,
    rngCursor := 0 }

/-- A fresh session for the C5 witness: empty board, three 2x2 squares. -/
def gFresh : Game :=
  { board := 0, hand := fun _ => 0, handUsed := fun _ => false,
    score := 0, turnNumber := 1, gameOver := false, rng := fun _ => 0,
    rngCursor := 0 }

/-- The move enumeration of `countTerminalNodes` (src/src/perft.cpp lines
64-83): every piece of the catalog, every anchor in
`[0, maxRow] x [0, maxCol]` in row-major order, keeping the mask whenever
`board.canPlace(mask)` holds. -/
def legalMasks (pieces : List Piece) (board : Nat) : List Nat :=
  pieces.flatMap fun p =>
    (List.range (p.maxRow + 1)).flatMap fun row =>
      (List.range (p.maxCol + 1)).filterMap fun col =>
        let mask := p.shiftToUnsafe row col
        if canPlaceB board mask then some mask else none

/-- `countTerminalNodes` (src/src/perft.cpp lines 51-95) with the
transposition table removed: the pure recursion.  `fuel` is the remaining
depth budget `max_depth - depth`; a node with no budget is one leaf, a node
whose placements contribute nothing (no legal move) is one leaf, otherwise
the node counts the sum over all children reached by place-and-clear. -/
def countTerminalNodes (pieces : List Piece) : Nat → Nat → Nat
  | 0, _ => 1
  | fuel + 1, board =>
    let total := ((legalMasks pieces board).map fun mask =>
      countTerminalNodes pieces fuel ((placeAndClear board mask).1)).sum
    if total = 0 then 1 else total

/-- `TranspositionTable::MAX_DEPTH` (src/src/perft.cpp). -/
def MAX_TT_DEPTH : Nat := 8

/-- The transposition table: per-depth maps from board occupancy to the
computed terminal-node count, modelled functionally. -/
def TT : Type := Nat → Nat → Option Nat

/-- A cleared table (`TranspositionTable::clear`). -/
def ttEmpty : TT := fun _ _ => none

/-- `TranspositionTable::store`. -/
def ttStore (tt : TT) (d b v : Nat) : TT :=
  fun d' b' => if d' = d ∧ b' = b then some v else tt d' b'

/-- `countTerminalNodes` (src/src/perft.cpp lines 51-95) with the
transposition table threaded through: query before expanding (only for
`depth < MAX_DEPTH`), accumulate children left to right, replace a zero
total by 1 (game-over leaf), store the total under `(board, depth)`. -/
def countTerminalNodesTT (pieces : List Piece) : Nat → Nat → Nat → TT → Nat × TT
  | 0, _, _, tt => (1, tt)
  | fuel + 1, depth, board, tt =>
    match (if depth < MAX_TT_DEPTH then tt depth board else none) with
    | some v => (v, tt)
    | none =>
      let res := (legalMasks pieces board).foldl
        (fun acc mask =>
          let r := countTerminalNodesTT pieces fuel (depth + 1)
            ((placeAndClear board mask).1) acc.2
          (acc.1 + r.1, r.2))
        (0, tt)
      let total := if res.1 = 0 then 1 else res.1
      (total, if depth < MAX_TT_DEPTH then ttStore res.2 depth board total else res.2)

/-- Table soundness relative to a fixed total budget `fuel0`: every stored
entry at key `(d, b)` is the pure count at remaining budget `fuel0 - d`. -/
def ttInv (pieces : List Piece) (fuel0 : Nat) (tt : TT) : Prop :=
  ∀ d b v, tt d b = some v → v = countTerminalNodes pieces (fuel0 - d) b

/-- One line-clearing step of `SmartStrategy::simulatePlace`
(src/src/simulator.cpp lines 128-153): if the line mask is entirely set in
the current board, remove it and bump the counter. -/
def clearLineStep (mask : Nat) (st : Nat × Nat) : Nat × Nat :=
  if st.1 &&& mask == mask then (st.1 &&& (FULL_BOARD ^^^ mask), st.2 + 1) else st

/-- `SmartStrategy::simulatePlace` (src/src/simulator.cpp lines 128-153):
OR the piece in, then clear full rows 0..7 one at a time against the evolving
board, then clear full columns 0..7 the same way; returns the resulting board
and the number of lines cleared. -/
def simulatePlace (boardMask pieceMask : Nat) : Nat × Nat :=
  let b0 := boardMask ||| pieceMask
  let st1 := (List.range 8).foldl (fun st r => clearLineStep (rowMask r) st) (b0, 0)
  (List.range 8).foldl (fun st c => clearLineStep (colMask c) st) st1

/-- The union of the line masks that are entirely set in `b`, over index list
`l`. -/
def linesUnion (m : Nat → Nat) (b : Nat) (l : List Nat) : Nat :=
  l.foldr (fun r acc => if b &&& m r == m r then m r ||| acc else acc) 0

/-- The board after `simulatePlace`'s row-clearing pass. -/
def afterRows (b0 : Nat) : Nat :=
  b0 &&& (FULL_BOARD ^^^ linesUnion rowMask b0 (List.range 8))

lemma testBit_255 (k : Nat) : (255 : Nat).testBit k = decide (k < 8) := by
  have h : (255 : Nat) = 2 ^ 8 - 1 := by norm_num
  rw [h, Nat.testBit_two_pow_sub_one]

lemma testBit_BROADCAST (k : Nat) :
    BROADCAST.testBit k = (decide (k < 64) && decide (k % 8 = 0)) := by
  by_cases hk : k < 64
  · exact (by decide :
      ∀ j < 64, BROADCAST.testBit j = (decide (j < 64) && decide (j % 8 = 0))) k hk
  · have hb : BROADCAST < 2 ^ k := by
      calc BROADCAST < 2 ^ 64 := by decide
        _ ≤ 2 ^ k := Nat.pow_le_pow_right (by norm_num) (by omega)
    simp [Nat.testBit_lt_two_pow hb, hk]

lemma testBit_FULL_BOARD (k : Nat) : FULL_BOARD.testBit k = decide (k < 64) := by
  have h : FULL_BOARD = 2 ^ 64 - 1 := by norm_num [FULL_BOARD]
  rw [h, Nat.testBit_two_pow_sub_one]

lemma colIndicator_testBit (occ k : Nat) :
    (colIndicator occ).testBit k = (decide (k < 8) && colFull occ k) := by
  unfold colIndicator colFull
  simp only [Nat.testBit_and, Nat.testBit_shiftRight, testBit_255,
    show (0xFF : Nat) = 255 from rfl]
  ring_nf
  rw [Bool.eq_iff_iff]
  simp only [Bool.and_eq_true, decide_eq_true_eq]
  tauto

lemma rowIndicator_testBit (occ r : Nat) (hr : r < 8) :
    (rowIndicator occ).testBit (8 * r) = rowFull occ r := by
  have hb : BROADCAST.testBit (8 * r) = true := by
    rw [testBit_BROADCAST]
    simp only [Bool.and_eq_true, decide_eq_true_eq]
    omega
  unfold rowIndicator rowFull
  simp only [Nat.testBit_and, Nat.testBit_shiftRight, hb, Bool.and_true]
  ring_nf
  rw [Bool.eq_iff_iff]
  simp only [Bool.and_eq_true]
  tauto

lemma rowIndicator_testBit_off (occ k : Nat) (hk : k % 8 ≠ 0 ∨ 64 ≤ k) :
    (rowIndicator occ).testBit k = false := by
  unfold rowIndicator
  simp only [Nat.testBit_and, Nat.testBit_shiftRight, testBit_BROADCAST]
  rcases hk with hk | hk
  · simp [hk]
  · simp [show ¬(k < 64) by omega]

lemma colIndicator_lt (occ : Nat) : colIndicator occ < 256 := by
  simp only [colIndicator]
  exact lt_of_le_of_lt Nat.and_le_right (by norm_num)

lemma rowIndicator_lt (occ : Nat) : rowIndicator occ < 2 ^ 64 := by
  simp only [rowIndicator]
  exact lt_of_le_of_lt Nat.and_le_right (by norm_num [BROADCAST])

lemma mul255_broadcastN (t : Nat) : 255 * broadcastN t = 2 ^ (8 * t) - 1 := by
  induction t with
  | zero => simp [broadcastN]
  | succ n ih =>
    have hp : 2 ^ (8 * (n + 1)) = 256 * 2 ^ (8 * n) := by
      rw [show 8 * (n + 1) = 8 * n + 8 by ring, pow_add]; ring
    have h1 : (1 : Nat) ≤ 2 ^ (8 * n) := Nat.one_le_two_pow
    unfold broadcastN
    rw [Nat.mul_add, ih]
    omega

lemma mul_broadcastN_lt (a t : Nat) (ha : a < 256) : a * broadcastN t < 2 ^ (8 * t) := by
  have h1 : a * broadcastN t ≤ 255 * broadcastN t :=
    Nat.mul_le_mul_right _ (by omega)
  have h2 := mul255_broadcastN t
  have h3 : (1 : Nat) ≤ 2 ^ (8 * t) := Nat.one_le_two_pow
  omega

lemma testBit_mul_broadcastN (a t : Nat) (ha : a < 256) (k : Nat) :
    (a * broadcastN t).testBit k = (decide (k < 8 * t) && a.testBit (k % 8)) := by
  induction t with
  | zero => simp [broadcastN]
  | succ n ih =>
    have hsplit : a * broadcastN (n + 1) = 2 ^ (8 * n) * a + a * broadcastN n := by
      simp only [broadcastN]; ring
    rw [hsplit, Nat.testBit_mul_pow_two_add a (mul_broadcastN_lt a n ha) k]
    by_cases hk : k < 8 * n
    · simp [hk, ih, show k < 8 * (n + 1) by omega]
    · by_cases hk2 : k < 8 * (n + 1)
      · have h1 : k - 8 * n = k % 8 := by omega
        simp [hk, hk2, h1]
      · have ha2 : a < 2 ^ (k - 8 * n) := by
          calc a < 256 := ha
            _ = 2 ^ 8 := by norm_num
            _ ≤ 2 ^ (k - 8 * n) := Nat.pow_le_pow_right (by norm_num) (by omega)
        simp [hk, hk2, Nat.testBit_lt_two_pow ha2]

lemma BROADCAST_eq_broadcastN : BROADCAST = broadcastN 8 := by decide

lemma testBit_mul_BROADCAST (a : Nat) (ha : a < 256) (k : Nat) :
    (a * BROADCAST).testBit k = (decide (k < 64) && a.testBit (k % 8)) := by
  rw [BROADCAST_eq_broadcastN, testBit_mul_broadcastN a 8 ha k]

lemma testBit_mul255_aligned :
    ∀ (t a : Nat), a < 2 ^ (8 * t) → (∀ k, a.testBit k = true → k % 8 = 0) →
    ∀ j, (a * 255).testBit j = (decide (j < 8 * t) && a.testBit (8 * (j / 8))) := by
  intro t
  induction t with
  | zero =>
    intro a ha _ j
    interval_cases a
    simp
  | succ n ih =>
    intro a ha halign j
    have hl8 : ∀ k, k < 8 → (a % 256).testBit k = a.testBit k := by
      intro k hk
      have h256 : (256 : Nat) = 2 ^ 8 := by norm_num
      rw [h256, Nat.testBit_mod_two_pow]
      simp [hk]
    have hlb : a % 256 < 2 := by
      have : ∀ i, 1 ≤ i → (a % 256).testBit i = false := by
        intro i hi
        by_cases hi8 : i < 8
        · rw [hl8 i hi8]
          by_cases hb : a.testBit i
          · have := halign i hb; omega
          · simpa using hb
        · exact Nat.testBit_lt_two_pow (by
            calc a % 256 < 256 := Nat.mod_lt _ (by norm_num)
              _ = 2 ^ 8 := by norm_num
              _ ≤ 2 ^ i := Nat.pow_le_pow_right (by norm_num) (by omega))
      have := Nat.lt_pow_two_of_testBit (n := 1) (a % 256) (by
        intro i hi; exact this i hi)
      simpa using this
    have hdecomp : a = 2 ^ 8 * (a / 256) + a % 256 := by
      have := Nat.div_add_mod a 256
      norm_num
      omega
    have hhal : ∀ k, (a / 256).testBit k = true → k % 8 = 0 := by
      intro k hk
      have h256 : (256 : Nat) = 2 ^ 8 := by norm_num
      have : (a / 256).testBit k = a.testBit (8 + k) := by
        rw [h256, ← Nat.shiftRight_eq_div_pow, Nat.testBit_shiftRight]
      rw [this] at hk
      have := halign _ hk
      omega
    have hhlt : a / 256 < 2 ^ (8 * n) := by
      rw [Nat.div_lt_iff_lt_mul (by norm_num : (0:Nat) < 256)]
      calc a < 2 ^ (8 * (n + 1)) := ha
        _ = 2 ^ (8 * n) * 256 := by
          rw [show 8 * (n + 1) = 8 * n + 8 by ring, pow_add]; norm_num
    have hsplit : a * 255 = 2 ^ 8 * (a / 256 * 255) + a % 256 * 255 := by
      conv_lhs => rw [hdecomp]
      ring
    have hmb : a % 256 * 255 < 2 ^ 8 := by omega
    rw [hsplit, Nat.testBit_mul_pow_two_add _ hmb j]
    by_cases hj : j < 8
    · rw [if_pos hj]
      have hj0 : j / 8 = 0 := by omega
      have hd : decide (j < 8 * (n + 1)) = true := by
        simp only [decide_eq_true_eq]; omega
      have hcases : a % 256 = 0 ∨ a % 256 = 1 := by omega
      rcases hcases with h0 | h1
      · have ha2 : a % 2 = 0 := by omega
        simp [h0, hj0, Nat.testBit_zero, ha2, hd]
      · have ha2 : a % 2 = 1 := by omega
        rw [h1, one_mul, testBit_255]
        simp [hj, hj0, Nat.testBit_zero, ha2, hd]
    · have hup : a.testBit (8 * (j / 8)) = (a / 256).testBit (8 * (j / 8) - 8) := by
        conv_lhs => rw [hdecomp]
        rw [Nat.testBit_mul_pow_two_add _ (show a % 256 < 2 ^ 8 by omega)]
        simp [show ¬(8 * (j / 8) < 8) by omega]
      rw [if_neg hj, ih (a / 256) hhlt hhal (j - 8), hup]
      have he1 : (j - 8) / 8 = j / 8 - 1 := by omega
      have he2 : 8 * (j / 8 - 1) = 8 * (j / 8) - 8 := by omega
      have he3 : (decide (j - 8 < 8 * n)) = (decide (j < 8 * (n + 1))) := by
        simp only [decide_eq_decide]; omega
      rw [he1, he2, he3]

lemma rowIndicator_aligned (occ : Nat) :
    ∀ m, (rowIndicator occ).testBit m = true → m % 8 = 0 := by
  intro m hm
  by_contra hmm
  rw [rowIndicator_testBit_off occ m (Or.inl hmm)] at hm
  simp at hm

lemma clearFullLines_fst_testBit (occ k : Nat) :
    ((clearFullLines occ).1).testBit k
      = (decide (k < 64) && occ.testBit k &&
         !(rowFull occ (k / 8) || colFull occ (k % 8))) := by
  have hrow := testBit_mul255_aligned 8 (rowIndicator occ)
    (by simpa using rowIndicator_lt occ) (rowIndicator_aligned occ) k
  simp only [clearFullLines]
  simp only [Nat.testBit_and, Nat.testBit_or, testBit_FULL_BOARD, Nat.testBit_xor]
  rw [testBit_mul_BROADCAST _ (colIndicator_lt occ) k, hrow]
  by_cases hk : k < 64
  · have h1 : k % 8 < 8 := by omega
    have h2 : k / 8 < 8 := by omega
    rw [colIndicator_testBit, rowIndicator_testBit occ (k / 8) h2]
    simp only [decide_eq_true hk, decide_eq_true h1, Bool.true_and, Bool.true_xor]
    conv_lhs => rw [Bool.or_comm]
  · simp [hk]

lemma clearFullLines_fst_lt (occ : Nat) : (clearFullLines occ).1 < 2 ^ 64 := by
  apply Nat.lt_pow_two_of_testBit
  intro i hi
  rw [clearFullLines_fst_testBit]
  simp [show ¬(i < 64) by omega]

lemma popcount_colIndicator (occ : Nat) :
    popcount64 (colIndicator occ) = (List.range 8).countP (fun c => colFull occ c) := by
  unfold popcount64
  rw [show (64 : Nat) = 8 + 56 from rfl, List.range_add, List.countP_append]
  have h2 : ((List.range 56).map (8 + ·)).countP (fun k => (colIndicator occ).testBit k) = 0 := by
    rw [List.countP_eq_zero]
    intro a ha
    simp only [List.mem_map, List.mem_range] at ha
    obtain ⟨x, _, rfl⟩ := ha
    rw [colIndicator_testBit]
    simp [show ¬(8 + x < 8) by omega]
  rw [h2, add_zero]
  refine List.countP_congr (fun x hx => ?_)
  rw [List.mem_range] at hx
  rw [colIndicator_testBit]
  simp [hx]

lemma popcount_rowIndicator_aux (occ : Nat) :
    ∀ t, t ≤ 8 →
      (List.range (8 * t)).countP (fun k => (rowIndicator occ).testBit k)
        = (List.range t).countP (fun r => rowFull occ r) := by
  intro t
  induction t with
  | zero => simp
  | succ n ih =>
    intro hn
    have hsp : 8 * (n + 1) = 8 * n + 8 := by ring
    rw [hsp, List.range_add, List.countP_append, ih (by omega)]
    have h0 : (rowIndicator occ).testBit (8 * n + 0) = rowFull occ n := by
      simpa using rowIndicator_testBit occ n (by omega)
    have hoff : ∀ j, 1 ≤ j → j ≤ 7 →
        (rowIndicator occ).testBit (8 * n + j) = false := by
      intro j h1 h7
      exact rowIndicator_testBit_off occ _ (Or.inl (by omega))
    have hrange : List.range 8 = [0, 1, 2, 3, 4, 5, 6, 7] := by rfl
    have hrange1 := List.range_succ (n := n)
    rw [List.countP_map, hrange, hrange1, List.countP_append]
    simp only [List.countP_cons, List.countP_nil, Function.comp]
    simp only [h0, hoff 1 (by norm_num) (by norm_num), hoff 2 (by norm_num) (by norm_num),
      hoff 3 (by norm_num) (by norm_num), hoff 4 (by norm_num) (by norm_num),
      hoff 5 (by norm_num) (by norm_num), hoff 6 (by norm_num) (by norm_num),
      hoff 7 (by norm_num) (by norm_num)]
    simp

lemma popcount_rowIndicator (occ : Nat) :
    popcount64 (rowIndicator occ) = (List.range 8).countP (fun r => rowFull occ r) := by
  have := popcount_rowIndicator_aux occ 8 (by norm_num)
  simpa [popcount64] using this

lemma clearFullLines_snd (occ : Nat) :
    (clearFullLines occ).2
      = (List.range 8).countP (fun c => colFull occ c)
        + (List.range 8).countP (fun r => rowFull occ r) := by
  simp only [clearFullLines]
  rw [popcount_colIndicator, popcount_rowIndicator]

lemma clearFullLines_fst_subset (occ k : Nat)
    (h : ((clearFullLines occ).1).testBit k = true) : occ.testBit k = true := by
  rw [clearFullLines_fst_testBit] at h
  simp only [Bool.and_eq_true] at h
  exact h.1.2

lemma rowFull_of_subset (x y r : Nat)
    (hxy : ∀ k, x.testBit k = true → y.testBit k = true)
    (h : rowFull x r = true) : rowFull y r = true := by
  unfold rowFull at h ⊢
  simp only [Bool.and_eq_true] at h ⊢
  exact ⟨⟨⟨⟨⟨⟨⟨hxy _ h.1.1.1.1.1.1.1, hxy _ h.1.1.1.1.1.1.2⟩, hxy _ h.1.1.1.1.1.2⟩,
    hxy _ h.1.1.1.1.2⟩, hxy _ h.1.1.1.2⟩, hxy _ h.1.1.2⟩, hxy _ h.1.2⟩, hxy _ h.2⟩

lemma colFull_of_subset (x y c : Nat)
    (hxy : ∀ k, x.testBit k = true → y.testBit k = true)
    (h : colFull x c = true) : colFull y c = true := by
  unfold colFull at h ⊢
  simp only [Bool.and_eq_true] at h ⊢
  exact ⟨⟨⟨⟨⟨⟨⟨hxy _ h.1.1.1.1.1.1.1, hxy _ h.1.1.1.1.1.1.2⟩, hxy _ h.1.1.1.1.1.2⟩,
    hxy _ h.1.1.1.1.2⟩, hxy _ h.1.1.1.2⟩, hxy _ h.1.1.2⟩, hxy _ h.1.2⟩, hxy _ h.2⟩

lemma rowFull_clearFullLines (occ r : Nat) (hr : r < 8) :
    rowFull ((clearFullLines occ).1) r = false := by
  by_contra hcon
  rw [Bool.not_eq_false] at hcon
  have hfull : rowFull occ r = true :=
    rowFull_of_subset _ _ r (clearFullLines_fst_subset occ) hcon
  have h0 : ((clearFullLines occ).1).testBit (8 * r) = true := by
    unfold rowFull at hcon
    simp only [Bool.and_eq_true] at hcon
    exact hcon.1.1.1.1.1.1.1
  rw [clearFullLines_fst_testBit] at h0
  have hdiv : 8 * r / 8 = r := by omega
  simp only [hdiv, Bool.and_eq_true, Bool.not_eq_true', Bool.or_eq_false_iff] at h0
  rw [hfull] at h0
  simp at h0

lemma colFull_clearFullLines (occ c : Nat) (hc : c < 8) :
    colFull ((clearFullLines occ).1) c = false := by
  by_contra hcon
  rw [Bool.not_eq_false] at hcon
  have hfull : colFull occ c = true :=
    colFull_of_subset _ _ c (clearFullLines_fst_subset occ) hcon
  have h0 : ((clearFullLines occ).1).testBit c = true := by
    unfold colFull at hcon
    simp only [Bool.and_eq_true] at hcon
    exact hcon.1.1.1.1.1.1.1
  rw [clearFullLines_fst_testBit] at h0
  have hmod : c % 8 = c := by omega
  simp only [hmod, Bool.and_eq_true, Bool.not_eq_true', Bool.or_eq_false_iff] at h0
  rw [hfull] at h0
  simp at h0

lemma and_FULL_BOARD (x : Nat) (hx : x < 2 ^ 64) : x &&& FULL_BOARD = x := by
  apply Nat.eq_of_testBit_eq
  intro k
  rw [Nat.testBit_and, testBit_FULL_BOARD]
  by_cases hk : k < 64
  · simp [hk]
  · have : x.testBit k = false := Nat.testBit_lt_two_pow (by
      calc x < 2 ^ 64 := hx
        _ ≤ 2 ^ k := Nat.pow_le_pow_right (by norm_num) (by omega))
    simp [hk, this]

lemma clearFullLines_of_noFull (b : Nat) (hb : b < 2 ^ 64)
    (hrow : ∀ r, r < 8 → rowFull b r = false)
    (hcol : ∀ c, c < 8 → colFull b c = false) :
    clearFullLines b = (b, 0) := by
  have hci : colIndicator b = 0 := by
    apply Nat.eq_of_testBit_eq
    intro k
    rw [colIndicator_testBit]
    by_cases hk : k < 8
    · simp [hcol k hk]
    · simp [hk]
  have hri : rowIndicator b = 0 := by
    apply Nat.eq_of_testBit_eq
    intro k
    by_cases hk8 : k % 8 = 0
    · by_cases hk64 : k < 64
      · have hkk : k = 8 * (k / 8) := by omega
        rw [hkk, rowIndicator_testBit b (k / 8) (by omega)]
        simp [hrow (k / 8) (by omega)]
      · rw [rowIndicator_testBit_off b k (Or.inr (by omega))]
        simp
    · rw [rowIndicator_testBit_off b k (Or.inl hk8)]
      simp
  unfold clearFullLines
  rw [hci, hri]
  have hp0 : popcount64 0 = 0 := by decide
  simp only [Nat.zero_mul, Nat.zero_or, Nat.xor_zero, hp0, Nat.add_zero]
  rw [and_FULL_BOARD b hb]

/-- C1: for every 64-bit occupancy, `Board::clearFullLines` removes exactly the
union of the cells of entirely-set rows and entirely-set columns, both
evaluated against the pre-call occupancy, and returns the number of full rows
plus the number of full columns. -/
theorem c1_clearFullLines_spec (occ : Nat) (hocc : occ < 2 ^ 64) :
    (∀ k, k < 64 → ((clearFullLines occ).1).testBit k
        = (occ.testBit k && !(rowFull occ (k / 8) || colFull occ (k % 8)))) ∧
    (clearFullLines occ).1 < 2 ^ 64 ∧
    (clearFullLines occ).2
      = (List.range 8).countP (fun r => rowFull occ r)
        + (List.range 8).countP (fun c => colFull occ c) := by
  refine ⟨?_, clearFullLines_fst_lt occ, ?_⟩
  · intro k hk
    rw [clearFullLines_fst_testBit]
    simp [decide_eq_true hk]
  · rw [clearFullLines_snd]
    exact Nat.add_comm _ _

/-- Witness for C1 at the occupancy with exactly row 3 entirely set. -/
theorem c1_witness :
    (clearFullLines (rowMask 3)).2
      = (List.range 8).countP (fun r => rowFull (rowMask 3) r)
        + (List.range 8).countP (fun c => colFull (rowMask 3) c) :=
  (c1_clearFullLines_spec (rowMask 3) (by decide)).2.2

/-- C10: `clearFullLines` is idempotent — one call can never leave a full row
or column behind, so an immediate second call clears nothing and reports 0. -/
theorem c10_clearFullLines_idempotent (occ : Nat) (hocc : occ < 2 ^ 64) :
    clearFullLines ((clearFullLines occ).1) = ((clearFullLines occ).1, 0) :=
  clearFullLines_of_noFull _ (clearFullLines_fst_lt occ)
    (fun r hr => rowFull_clearFullLines occ r hr)
    (fun c hc => colFull_clearFullLines occ c hc)

/-- Witness for C10 at the occupancy with row 3 and column 5 entirely set. -/
theorem c10_witness :
    clearFullLines ((clearFullLines (rowMask 3 ||| colMask 5)).1)
      = ((clearFullLines (rowMask 3 ||| colMask 5)).1, 0) :=
  c10_clearFullLines_idempotent (rowMask 3 ||| colMask 5) (by decide)

/-- C9 counterexample: the catalog does not have 33 entries. -/
theorem c9_counterexample : ¬ PIECES.length = 33 := by decide

/-- C9 (amended): the catalog is a fixed set of exactly 34 shapes — two
squares, two rectangles, three horizontal lines (height 1), three vertical
lines (width 1), and 4 rotations each of the S, T, small-corner,
large-corner, L and J pieces — and `NUM_PIECES` agrees with it. -/
theorem c9_catalog_size :
    PIECES.length = 34 ∧ NUM_PIECES = 34 ∧
    (PIECES.filter (fun p => p.height = 1)).length = 3 ∧
    (PIECES.filter (fun p => p.width = 1)).length = 3 := by decide

lemma testBit_shifted_box (base w h row col i j : Nat)
    (hbox : ∀ k, base.testBit k = true → k % 8 < w ∧ k / 8 < h)
    (hw : w ≤ 8)
    (hrow : row ≤ 8 - h) (hcol : col ≤ 8 - w) (hh0 : 0 < h) (hw0 : 0 < w)
    (hi : i < 8) (hj : j < 8) :
    (base <<< (row * 8 + col)).testBit (i * 8 + j)
      = (decide (row ≤ i) && decide (col ≤ j) &&
         base.testBit ((i - row) * 8 + (j - col))) := by
  rw [Nat.testBit_shiftLeft]
  by_cases hri : row ≤ i
  · by_cases hcj : col ≤ j
    · have hge : i * 8 + j ≥ row * 8 + col := by omega
      have he : i * 8 + j - (row * 8 + col) = (i - row) * 8 + (j - col) := by omega
      simp [hge, hri, hcj, he]
    · by_cases hge : i * 8 + j ≥ row * 8 + col
      · have hb : base.testBit (i * 8 + j - (row * 8 + col)) = false := by
          by_contra hbb
          rw [Bool.not_eq_false] at hbb
          have hbox2 := hbox _ hbb
          omega
        simp [hge, hb, hcj]
      · simp [hge, hcj]
  · have hlt : ¬(i * 8 + j ≥ row * 8 + col) := by omega
    simp [hlt, hri]

lemma pieces_box_bounded :
    ∀ p ∈ PIECES, p.baseMask ≠ 0 ∧ p.baseMask < 2 ^ 64 ∧
      0 < p.width ∧ p.width ≤ 8 ∧ 0 < p.height ∧ p.height ≤ 8 ∧
      ∀ k, k < 64 → p.baseMask.testBit k = true →
        k % 8 < p.width ∧ k / 8 < p.height := by decide

lemma pieces_box (p : Piece) (hp : p ∈ PIECES) :
    ∀ k, p.baseMask.testBit k = true → k % 8 < p.width ∧ k / 8 < p.height := by
  intro k hk
  by_cases h64 : k < 64
  · exact (pieces_box_bounded p hp).2.2.2.2.2.2 k h64 hk
  · exfalso
    have hb : p.baseMask.testBit k = false := Nat.testBit_lt_two_pow (by
      calc p.baseMask < 2 ^ 64 := (pieces_box_bounded p hp).2.1
        _ ≤ 2 ^ k := Nat.pow_le_pow_right (by norm_num) (by omega))
    rw [hb] at hk
    simp at hk

/-- C6: for every catalog piece, `maxRow = 8 - height` and
`maxCol = 8 - width`; every in-range table entry is the base pattern shifted
to the anchor — cell `(i, j)` of the entry is cell `(i - row, j - col)` of the
base pattern — and is non-zero; and every out-of-range anchor (including
negative ones) yields the zero sentinel through `Piece::shiftTo`. -/
theorem c6_shift_table : ∀ p ∈ PIECES,
    p.maxRow = 8 - p.height ∧ p.maxCol = 8 - p.width ∧
    (∀ row col, row ≤ p.maxRow → col ≤ p.maxCol →
      p.tableAt row col = p.baseMask <<< (row * 8 + col) ∧
      p.tableAt row col ≠ 0 ∧
      (∀ i j, i < 8 → j < 8 →
        (p.tableAt row col).testBit (i * 8 + j)
          = (decide (row ≤ i) && decide (col ≤ j) &&
             p.baseMask.testBit ((i - row) * 8 + (j - col))))) ∧
    (∀ row col : Int,
      row < 0 ∨ (p.maxRow : Int) < row ∨ col < 0 ∨ (p.maxCol : Int) < col →
      p.shiftTo row col = 0) := by
  intro p hp
  obtain ⟨hb0, _, hw0, hw8, hh0, hh8, _⟩ := pieces_box_bounded p hp
  refine ⟨rfl, rfl, ?_, ?_⟩
  · intro row col hrow hcol
    have htab : p.tableAt row col = p.baseMask <<< (row * 8 + col) := by
      unfold Piece.tableAt
      rw [if_pos ⟨hrow, hcol⟩]
    refine ⟨htab, ?_, ?_⟩
    · rw [htab, Nat.shiftLeft_eq]
      exact Nat.mul_ne_zero hb0 (Nat.pos_iff_ne_zero.mp (Nat.pos_pow_of_pos _ (by norm_num)))
    · intro i j hi hj
      rw [htab]
      exact testBit_shifted_box p.baseMask p.width p.height row col i j
        (pieces_box p hp) hw8
        (by simpa [Piece.maxRow] using hrow) (by simpa [Piece.maxCol] using hcol)
        hh0 hw0 hi hj
  · intro row col hout
    simp only [Piece.shiftTo]
    split
    · rfl
    · rename_i hcond
      exfalso
      simp only [Bool.or_eq_true, decide_eq_true_eq, not_or] at hcond
      omega

/-- Witness for C6: the 2x2 square's table entry at anchor (3,4). -/
theorem c6_witness :
    (getPiece 0).tableAt 3 4 = (getPiece 0).baseMask <<< (3 * 8 + 4) ∧
    (getPiece 0).tableAt 3 4 ≠ 0 :=
  ⟨((c6_shift_table (getPiece 0) (by decide)).2.2.1 3 4 (by decide) (by decide)).1,
   ((c6_shift_table (getPiece 0) (by decide)).2.2.1 3 4 (by decide) (by decide)).2.1⟩

/-- C7: `getLegalMoves` yields exactly the in-range anchors whose precomputed
mask does not overlap the occupancy (`canPlace(mask)` being `mask AND
occupancy == 0`), in deterministic row-major order. -/
theorem c7_getLegalMoves (occ : Nat) (p : Piece) :
    (∀ m, canPlaceB occ m = true ↔ occ &&& m = 0) ∧
    (∀ row col mask, (row, col, mask) ∈ getLegalMoves occ p ↔
      (row ≤ p.maxRow ∧ col ≤ p.maxCol ∧ mask = p.tableAt row col ∧
       occ &&& mask = 0)) ∧
    List.Pairwise
      (fun a b : Nat × Nat × Nat => a.1 < b.1 ∨ (a.1 = b.1 ∧ a.2.1 < b.2.1))
      (getLegalMoves occ p) := by
  refine ⟨fun m => by simp [canPlaceB], ?_, ?_⟩
  · intro row col mask
    simp only [getLegalMoves, List.mem_flatMap, List.mem_filterMap, List.mem_range]
    constructor
    · rintro ⟨r, hr, c, hc, hsome⟩
      by_cases hcp : canPlaceB occ (p.shiftToUnsafe r c)
      · rw [if_pos hcp] at hsome
        injection hsome with h
        obtain ⟨h1, h2, h3⟩ : r = row ∧ c = col ∧ p.shiftToUnsafe r c = mask := by
          simpa [Prod.ext_iff] using h
        subst h1
        subst h2
        subst h3
        refine ⟨by omega, by omega, rfl, ?_⟩
        simpa [canPlaceB] using hcp
      · rw [if_neg hcp] at hsome
        cases hsome
    · rintro ⟨hrow, hcol, rfl, hand⟩
      refine ⟨row, by omega, col, by omega, ?_⟩
      rw [show p.shiftToUnsafe row col = p.tableAt row col from rfl,
        if_pos (by simp [canPlaceB, hand])]
  · apply List.pairwise_flatMap.mpr
    constructor
    · intro r _
      apply List.pairwise_filterMap.mpr
      apply List.Pairwise.imp ?_ (List.pairwise_lt_range _)
      intro c c' hcc b hb b' hb'
      simp only [Option.mem_def] at hb hb'
      have hbv : b.1 = r ∧ b.2.1 = c := by
        by_cases h : canPlaceB occ (p.shiftToUnsafe r c)
        · rw [if_pos h] at hb; injection hb with hb; subst hb; exact ⟨rfl, rfl⟩
        · rw [if_neg h] at hb; cases hb
      have hbv' : b'.1 = r ∧ b'.2.1 = c' := by
        by_cases h : canPlaceB occ (p.shiftToUnsafe r c')
        · rw [if_pos h] at hb'; injection hb' with hb'; subst hb'; exact ⟨rfl, rfl⟩
        · rw [if_neg h] at hb'; cases hb'
      right
      exact ⟨hbv.1.trans hbv'.1.symm, hbv.2 ▸ hbv'.2 ▸ hcc⟩
    · apply List.Pairwise.imp ?_ (List.pairwise_lt_range _)
      intro r r' hrr b hb b' hb'
      simp only [List.mem_filterMap] at hb hb'
      obtain ⟨c, _, hc⟩ := hb
      obtain ⟨c', _, hc'⟩ := hb'
      have hbv : b.1 = r := by
        by_cases h : canPlaceB occ (p.shiftToUnsafe r c)
        · rw [if_pos h] at hc; injection hc with hc; subst hc; rfl
        · rw [if_neg h] at hc; cases hc
      have hbv' : b'.1 = r' := by
        by_cases h : canPlaceB occ (p.shiftToUnsafe r' c')
        · rw [if_pos h] at hc'; injection hc' with hc'; subst hc'; rfl
        · rw [if_neg h] at hc'; cases hc'
      left
      rw [hbv, hbv']
      exact hrr

lemma canPlace_false_of_noLegal (g : Game) (h : g.hasLegalMoves = false)
    (i r c : Int) : g.canPlace i r c = false := by
  unfold Game.canPlace
  cases hidx : intIdx i with
  | none => rfl
  | some k =>
    by_cases hu : g.handUsed k
    · simp [hu]
    · simp only [hu, Bool.false_eq_true, if_false]
      simp only [Game.canPlacePiece]
      by_cases hm : (getPiece (g.hand k)).shiftTo r c == 0
      · simp [hm]
      · have hvp : hasValidPlacement g.board (getPiece (g.hand k)) = false := by
          by_cases hv : hasValidPlacement g.board (getPiece (g.hand k))
          · exfalso
            unfold Game.hasLegalMoves at h
            rw [List.any_eq_false] at h
            exact h k (List.mem_finRange k) (by simp [hu, hv])
          · simpa using hv
        have hbound : 0 ≤ r ∧ r ≤ ((getPiece (g.hand k)).maxRow : Int) ∧
            0 ≤ c ∧ c ≤ ((getPiece (g.hand k)).maxCol : Int) := by
          by_contra hcon
          apply hm
          unfold Piece.shiftTo
          rw [if_pos]
          · rfl
          · simp only [Bool.or_eq_true, decide_eq_true_eq]
            omega
        obtain ⟨hr0, hrm, hc0, hcm⟩ := hbound
        simp only [hasValidPlacement, List.any_eq_false, Bool.not_eq_true] at hvp
        have hrmem : r.toNat ∈ List.range (8 - (getPiece (g.hand k)).height + 1) := by
          rw [List.mem_range]
          simp only [Piece.maxRow] at hrm
          omega
        have hcmem : c.toNat ∈ List.range (8 - (getPiece (g.hand k)).width + 1) := by
          rw [List.mem_range]
          simp only [Piece.maxCol] at hcm
          omega
        have hcol := hvp r.toNat hrmem c.toNat hcmem
        rw [Int.toNat_of_nonneg hr0, Int.toNat_of_nonneg hc0] at hcol
        rw [if_neg (by simpa using hm)]
        exact hcol

lemma checkGameOver_fields (g : Game) :
    (g.checkGameOver).board = g.board ∧ (g.checkGameOver).hand = g.hand ∧
    (g.checkGameOver).handUsed = g.handUsed ∧ (g.checkGameOver).score = g.score ∧
    (g.checkGameOver).turnNumber = g.turnNumber := by
  unfold Game.checkGameOver
  split <;> exact ⟨rfl, rfl, rfl, rfl, rfl⟩

lemma drawHand_fields (g : Game) :
    (g.drawHand).board = g.board ∧ (g.drawHand).score = g.score ∧
    (g.drawHand).handUsed = (fun _ => false) ∧
    (g.drawHand).turnNumber = g.turnNumber + 1 := by
  unfold Game.drawHand
  obtain ⟨h1, h2, h3, h4, h5⟩ := checkGameOver_fields
    { g with
      hand := fun i => g.rng (g.rngCursor + i.val) % NUM_PIECES
      handUsed := fun _ => false
      turnNumber := g.turnNumber + 1
      rngCursor := g.rngCursor + 3 }
  exact ⟨h1, h4, h3, h5⟩

/-- C4: in a terminal session state (`hasLegalMoves` false), every call to
`placePiece` or `makeMove`, with any arguments whatsoever, returns 0 and
leaves the whole state — grid, score, hand and used-flags — unchanged. -/
theorem c4_terminal_absorbing (g : Game) (h : g.hasLegalMoves = false) :
    (∀ i r c : Int, g.placePiece i r c = (0, g)) ∧
    (∀ mv : Move, g.makeMove mv = (0, g)) := by
  have hpp : ∀ i r c : Int, g.placePiece i r c = (0, g) := by
    intro i r c
    unfold Game.placePiece
    rw [canPlace_false_of_noLegal g h i r c]
    rfl
  refine ⟨hpp, ?_⟩
  intro mv
  unfold Game.makeMove
  cases intIdx mv.pieceIndex with
  | none => rfl
  | some k =>
    by_cases hgo : g.gameOver || g.handUsed k
    · simp [hgo]
    · simp only [hgo, Bool.false_eq_true, if_false]
      exact hpp mv.pieceIndex mv.row mv.col

/-- Witness for C4 at `gTerm`. -/
theorem c4_witness :
    gTerm.placePiece 0 0 0 = (0, gTerm) ∧ gTerm.placePiece (-3) 9 (-1) = (0, gTerm) ∧
    gTerm.makeMove ⟨2, 5, 5, 77⟩ = (0, gTerm) := by
  have h := c4_terminal_absorbing gTerm (by decide)
  exact ⟨h.1 0 0 0, h.1 (-3) 9 (-1), h.2 ⟨2, 5, 5, 77⟩⟩

/-- C5: `placePiece` returns 0 and changes nothing on an illegal request;
on a legal one it places the slot's mask, clears full lines, returns and adds
to the score exactly `8 * n^2` points for `n` lines cleared, and marks the
slot used (the used-flags being reset afterwards only when the placement
consumed the last slot and a fresh hand was drawn); `calculateClearScore`
is the map `n ↦ 8 * n^2`, sending 0, 1, 2 to 0, 8, 32. -/
theorem c5_placePiece_spec (g : Game) (i r c : Int) :
    (g.canPlace i r c = false → g.placePiece i r c = (0, g)) ∧
    (∀ k, intIdx i = some k → g.canPlace i r c = true →
      ((g.placePiece i r c).1
          = 8 * (clearFullLines (g.board ||| (getPiece (g.hand k)).shiftTo r c)).2 ^ 2 ∧
       (g.placePiece i r c).2.board
          = (clearFullLines (g.board ||| (getPiece (g.hand k)).shiftTo r c)).1 ∧
       (g.placePiece i r c).2.score = g.score + (g.placePiece i r c).1 ∧
       ((∃ j, j ≠ k ∧ g.handUsed j = false) →
          (g.placePiece i r c).2.handUsed = Function.update g.handUsed k true ∧
          (g.placePiece i r c).2.hand = g.hand ∧
          (g.placePiece i r c).2.turnNumber = g.turnNumber) ∧
       ((∀ j, j ≠ k → g.handUsed j = true) →
          (g.placePiece i r c).2.handUsed = (fun _ => false) ∧
          (g.placePiece i r c).2.turnNumber = g.turnNumber + 1))) ∧
    (∀ n : Nat, Game.calculateClearScore n = 8 * n ^ 2) ∧
    Game.calculateClearScore 0 = 0 ∧ Game.calculateClearScore 1 = 8 ∧
    Game.calculateClearScore 2 = 32 := by
  have hscore : ∀ n : Nat, Game.calculateClearScore n = 8 * n ^ 2 := by
    intro n; unfold Game.calculateClearScore; ring
  refine ⟨?_, ?_, hscore, rfl, rfl, rfl⟩
  · intro hno
    unfold Game.placePiece
    rw [hno]
    rfl
  · intro k hk hyes
    unfold Game.placePiece
    rw [hyes]
    simp only [Bool.not_true, Bool.false_eq_true, if_false, hk]
    set used1 := Function.update g.handUsed k true with hused1
    set cleared := clearFullLines (g.board ||| (getPiece (g.hand k)).shiftTo r c)
      with hcleared
    set pts := Game.calculateClearScore cleared.2 with hpts
    set g1 : Game :=
      { g with board := cleared.1, handUsed := used1, score := g.score + pts }
      with hg1
    by_cases hall : (List.finRange 3).all (fun j => used1 j)
    · rw [if_pos hall]
      obtain ⟨hb, hs, hhu, ht⟩ := drawHand_fields g1
      refine ⟨by simp [hpts, hscore], by simp [hb], by simp [hs, hb], ?_, ?_⟩
      · rintro ⟨j, hjk, hjf⟩
        exfalso
        rw [List.all_eq_true] at hall
        have := hall j (List.mem_finRange j)
        rw [hused1] at this
        simp only [Function.update_apply, if_neg hjk] at this
        rw [hjf] at this
        simp at this
      · intro _
        exact ⟨by simp [hhu], by simp [ht]⟩
    · rw [if_neg hall]
      obtain ⟨hb, hh, hhu, hs, ht⟩ := checkGameOver_fields g1
      refine ⟨by simp [hpts, hscore], by simp [hb], by simp [hs, hb], ?_, ?_⟩
      · intro _
        exact ⟨by simp [hhu], by simp [hh], by simp [ht]⟩
      · intro hallused
        exfalso
        apply hall
        rw [List.all_eq_true]
        intro j _
        rw [hused1]
        by_cases hjk : j = k
        · subst hjk
          simp [Function.update_apply]
        · simp [Function.update_apply, hjk, hallused j hjk]

/-- Witness for C5: placing the 2x2 square of slot 0 at (0,0) on `gFresh`. -/
theorem c5_witness :
    (gFresh.placePiece 0 0 0).1
        = 8 * (clearFullLines (gFresh.board ||| (getPiece (gFresh.hand 0)).shiftTo 0 0)).2 ^ 2 ∧
    (gFresh.placePiece 0 0 0).2.handUsed = Function.update gFresh.handUsed 0 true := by
  have h := (c5_placePiece_spec gFresh 0 0 0).2.1 0 (by decide) (by decide)
  exact ⟨h.1, (h.2.2.2.1 ⟨1, by decide, by decide⟩).1⟩

lemma countTerminalNodes_pos (pieces : List Piece) (fuel board : Nat) :
    0 < countTerminalNodes pieces fuel board := by
  cases fuel with
  | zero => simp [countTerminalNodes]
  | succ n =>
    simp only [countTerminalNodes]
    split
    · norm_num
    · rename_i h
      omega

lemma foldl_sum_inv (step : Nat × TT → Nat → Nat × TT) (val : Nat → Nat)
    (P : TT → Prop)
    (hstep : ∀ acc tt m, P tt →
      (step (acc, tt) m).1 = acc + val m ∧ P (step (acc, tt) m).2) :
    ∀ (ms : List Nat) (acc : Nat) (tt : TT), P tt →
      (ms.foldl step (acc, tt)).1 = acc + (ms.map val).sum ∧
      P (ms.foldl step (acc, tt)).2 := by
  intro ms
  induction ms with
  | nil => intro acc tt h; simpa using h
  | cons m t iht =>
    intro acc tt h
    simp only [List.foldl_cons, List.map_cons, List.sum_cons]
    obtain ⟨h1, h2⟩ := hstep acc tt m h
    obtain ⟨h3, h4⟩ := iht (step (acc, tt) m).1 (step (acc, tt) m).2 h2
    have h3' : (t.foldl step (step (acc, tt) m)).1
        = (step (acc, tt) m).1 + (t.map val).sum := h3
    have h4' : P (t.foldl step (step (acc, tt) m)).2 := h4
    rw [h3', h1]
    exact ⟨by omega, h4'⟩

lemma countTT_correct (pieces : List Piece) (fuel0 : Nat) :
    ∀ fuel depth board tt, fuel + depth = fuel0 → ttInv pieces fuel0 tt →
      (countTerminalNodesTT pieces fuel depth board tt).1
          = countTerminalNodes pieces fuel board ∧
      ttInv pieces fuel0 (countTerminalNodesTT pieces fuel depth board tt).2 := by
  intro fuel
  induction fuel with
  | zero =>
    intro depth board tt _ hinv
    exact ⟨rfl, hinv⟩
  | succ n ih =>
    intro depth board tt hsum hinv
    cases hq : (if depth < MAX_TT_DEPTH then tt depth board else none) with
    | some v =>
      have hv : v = countTerminalNodes pieces (n + 1) board := by
        by_cases hd : depth < MAX_TT_DEPTH
        · rw [if_pos hd] at hq
          have := hinv depth board v hq
          rwa [show fuel0 - depth = n + 1 by omega] at this
        · rw [if_neg hd] at hq; cases hq
      simp only [countTerminalNodesTT, hq]
      exact ⟨hv, hinv⟩
    | none =>
      have hfold := foldl_sum_inv
        (fun acc mask =>
          let r := countTerminalNodesTT pieces n (depth + 1)
            ((placeAndClear board mask).1) acc.2
          (acc.1 + r.1, r.2))
        (fun mask => countTerminalNodes pieces n ((placeAndClear board mask).1))
        (ttInv pieces fuel0)
        (fun acc tt' m h => by
          have := ih (depth + 1) ((placeAndClear board m).1) tt' (by omega) h
          exact ⟨by simp [this.1], this.2⟩)
        (legalMasks pieces board) 0 tt hinv
      simp only [countTerminalNodesTT, hq]
      rw [show countTerminalNodes pieces (n + 1) board
          = (if ((legalMasks pieces board).map fun mask =>
              countTerminalNodes pieces n ((placeAndClear board mask).1)).sum = 0
             then 1
             else ((legalMasks pieces board).map fun mask =>
              countTerminalNodes pieces n ((placeAndClear board mask).1)).sum)
        from rfl]
      obtain ⟨hsum1, hinv1⟩ := hfold
      rw [Nat.zero_add] at hsum1
      constructor
      · simp only [hsum1]
      · by_cases hd : depth < MAX_TT_DEPTH
        · rw [if_pos hd]
          intro d b v hsv
          unfold ttStore at hsv
          by_cases hdb : d = depth ∧ b = board
          · rw [if_pos hdb] at hsv
            injection hsv with hsv
            rw [← hsv, hdb.1, hdb.2, show fuel0 - depth = n + 1 by omega, hsum1]
            rfl
          · rw [if_neg hdb] at hsv
            exact hinv1 d b v hsv
        · rw [if_neg hd]
          exact hinv1

/-- C2: for every catalog, starting grid and depth budget, the memoized
search started from a cleared transposition table computes exactly the same
leaf count as the pure recursion without memoization. -/
theorem c2_memo_transparent (pieces : List Piece) (board maxDepth : Nat) :
    (countTerminalNodesTT pieces maxDepth 0 board ttEmpty).1
      = countTerminalNodes pieces maxDepth board :=
  (countTT_correct pieces maxDepth maxDepth 0 board ttEmpty (by omega)
    (fun d b v h => by simp [ttEmpty] at h)).1

/-- C3: a node with exhausted depth budget is exactly one leaf; a node at
positive budget with zero legal placements over the whole catalog is exactly
one leaf, never zero; any other node's count is the sum of its children's
counts over all (shape, legal anchor) pairs, each reached by place-and-clear
at one depth less. -/
theorem c3_leaf_counting (pieces : List Piece) (board fuel : Nat) :
    countTerminalNodes pieces 0 board = 1 ∧
    (0 < fuel → legalMasks pieces board = [] →
      countTerminalNodes pieces fuel board = 1) ∧
    (0 < fuel → legalMasks pieces board ≠ [] →
      countTerminalNodes pieces fuel board
        = ((legalMasks pieces board).map fun mask =>
            countTerminalNodes pieces (fuel - 1) ((placeAndClear board mask).1)).sum) := by
  refine ⟨rfl, ?_, ?_⟩
  · intro hfuel hnil
    obtain ⟨m, rfl⟩ : ∃ m, fuel = m + 1 := ⟨fuel - 1, by omega⟩
    simp [countTerminalNodes, hnil]
  · intro hfuel hne
    obtain ⟨m, rfl⟩ : ∃ m, fuel = m + 1 := ⟨fuel - 1, by omega⟩
    have hpos : 0 < ((legalMasks pieces board).map fun mask =>
        countTerminalNodes pieces m ((placeAndClear board mask).1)).sum := by
      cases hms : legalMasks pieces board with
      | nil => exact absurd hms hne
      | cons a t =>
        simp only [List.map_cons, List.sum_cons]
        have := countTerminalNodes_pos pieces m ((placeAndClear board a).1)
        omega
    simp only [countTerminalNodes, Nat.add_sub_cancel]
    rw [if_neg (by omega)]

/-- Witness for C3: the board with only cells (0,0),(0,1),(0,2) free admits
exactly the 3x1 line as a legal placement. -/
theorem c3_witness :
    legalMasks PIECES (FULL_BOARD ^^^ 7) ≠ [] ∧
    countTerminalNodes PIECES 1 (FULL_BOARD ^^^ 7)
      = ((legalMasks PIECES (FULL_BOARD ^^^ 7)).map fun mask =>
          countTerminalNodes PIECES 0 ((placeAndClear (FULL_BOARD ^^^ 7) mask).1)).sum := by
  refine ⟨by decide, ?_⟩
  have h := (c3_leaf_counting PIECES (FULL_BOARD ^^^ 7) 1).2.2 (by norm_num) (by decide)
  simpa using h

lemma linesUnion_testBit (m : Nat → Nat) (b : Nat) (l : List Nat) (k : Nat) :
    (linesUnion m b l).testBit k
      = l.any fun r => (b &&& m r == m r) && (m r).testBit k := by
  induction l with
  | nil => simp [linesUnion]
  | cons r t iht =>
    simp only [linesUnion, List.foldr_cons, List.any_cons]
    by_cases h : b &&& m r == m r
    · rw [if_pos h]
      rw [show (List.foldr (fun r acc => if b &&& m r == m r then m r ||| acc else acc) 0 t)
          = linesUnion m b t from rfl]
      simp [Nat.testBit_or, iht, h]
    · rw [if_neg h]
      rw [show (List.foldr (fun r acc => if b &&& m r == m r then m r ||| acc else acc) 0 t)
          = linesUnion m b t from rfl]
      simp [iht, h]

lemma linesUnion_lt (m : Nat → Nat) (b : Nat) (l : List Nat)
    (hm : ∀ r ∈ l, m r < 2 ^ 64) : linesUnion m b l < 2 ^ 64 := by
  induction l with
  | nil => simp [linesUnion]
  | cons r t iht =>
    simp only [linesUnion, List.foldr_cons]
    have ht := iht (fun x hx => hm x (List.mem_cons_of_mem r hx))
    by_cases h : b &&& m r == m r
    · rw [if_pos h]
      exact Nat.or_lt_two_pow (hm r (List.mem_cons_self r t)) ht
    · rw [if_neg h]
      exact ht

lemma or_and_eq_zero (U w v : Nat) (h1 : U &&& v = 0) (h2 : w &&& v = 0) :
    (U ||| w) &&& v = 0 := by
  rw [Nat.and_distrib_right, h1, h2]
  simp

lemma masked_and_xor (b U v : Nat) (hU : U < 2 ^ 64) (hv : v < 2 ^ 64) :
    (b &&& (FULL_BOARD ^^^ U)) &&& (FULL_BOARD ^^^ v)
      = b &&& (FULL_BOARD ^^^ (U ||| v)) := by
  apply Nat.eq_of_testBit_eq
  intro k
  simp only [Nat.testBit_and, Nat.testBit_xor, Nat.testBit_or, testBit_FULL_BOARD]
  by_cases hk : k < 64
  · simp only [decide_eq_true hk, Bool.true_xor]
    cases b.testBit k <;> cases U.testBit k <;> cases v.testBit k <;> rfl
  · have h1 : U.testBit k = false := Nat.testBit_lt_two_pow (by
      calc U < 2 ^ 64 := hU
        _ ≤ 2 ^ k := Nat.pow_le_pow_right (by norm_num) (by omega))
    have h2 : v.testBit k = false := Nat.testBit_lt_two_pow (by
      calc v < 2 ^ 64 := hv
        _ ≤ 2 ^ k := Nat.pow_le_pow_right (by norm_num) (by omega))
    simp [hk, h1, h2]

lemma masked_test_iff (b U v : Nat) (hU : U &&& v = 0) (hU64 : U < 2 ^ 64)
    (hv : v < 2 ^ 64) :
    ((b &&& (FULL_BOARD ^^^ U)) &&& v = v) ↔ (b &&& v = v) := by
  have hUp : ∀ k, U.testBit k = true → v.testBit k = false := by
    intro k hk
    have := congrArg (fun x => x.testBit k) hU
    simp only [Nat.testBit_and, Nat.zero_testBit] at this
    rw [hk] at this
    simpa using this
  constructor
  · intro h
    apply Nat.eq_of_testBit_eq
    intro k
    have hpt := congrArg (fun x => x.testBit k) h
    simp only [Nat.testBit_and, Nat.testBit_xor, testBit_FULL_BOARD] at hpt ⊢
    by_cases hvk : v.testBit k
    · have hk64 : k < 64 := by
        by_contra hcon
        rw [Nat.testBit_lt_two_pow (by
          calc v < 2 ^ 64 := hv
            _ ≤ 2 ^ k := Nat.pow_le_pow_right (by norm_num) (by omega))] at hvk
        simp at hvk
      have hUk : U.testBit k = false := by
        by_cases hUk' : U.testBit k
        · rw [hUp k hUk'] at hvk; simp at hvk
        · simpa using hUk'
      rw [hvk] at hpt ⊢
      simp only [decide_eq_true hk64, hUk, Bool.true_xor, Bool.not_false,
        Bool.and_true] at hpt
      simpa using hpt
    · simp only [Bool.not_eq_true] at hvk
      rw [hvk]
      simp
  · intro h
    apply Nat.eq_of_testBit_eq
    intro k
    have hpt := congrArg (fun x => x.testBit k) h
    simp only [Nat.testBit_and, Nat.testBit_xor, testBit_FULL_BOARD] at hpt ⊢
    by_cases hvk : v.testBit k
    · have hk64 : k < 64 := by
        by_contra hcon
        rw [Nat.testBit_lt_two_pow (by
          calc v < 2 ^ 64 := hv
            _ ≤ 2 ^ k := Nat.pow_le_pow_right (by norm_num) (by omega))] at hvk
        simp at hvk
      have hUk : U.testBit k = false := by
        by_cases hUk' : U.testBit k
        · rw [hUp k hUk'] at hvk; simp at hvk
        · simpa using hUk'
      rw [hvk] at hpt ⊢
      simp only [decide_eq_true hk64, hUk, Bool.true_xor, Bool.not_false,
        Bool.and_true]
      simpa using hpt
    · simp only [Bool.not_eq_true] at hvk
      rw [hvk]
      simp

lemma clear_fold (m : Nat → Nat) :
    ∀ (l : List Nat), l.Nodup →
      (∀ r ∈ l, m r < 2 ^ 64) →
      (∀ r ∈ l, ∀ r' ∈ l, r ≠ r' → m r &&& m r' = 0) →
      ∀ (U n b0 : Nat), U < 2 ^ 64 →
        (∀ r ∈ l, U &&& m r = 0) →
        l.foldl (fun st r => clearLineStep (m r) st) (b0 &&& (FULL_BOARD ^^^ U), n)
          = (b0 &&& (FULL_BOARD ^^^ (U ||| linesUnion m b0 l)),
             n + l.countP (fun r => b0 &&& m r == m r)) := by
  intro l
  induction l with
  | nil =>
    intro _ _ _ U n b0 _ _
    simp [linesUnion]
  | cons r t iht =>
    intro hnd hm64 hdisj U n b0 hU64 hU
    have hndt : t.Nodup := (List.nodup_cons.mp hnd).2
    have hrnt : r ∉ t := (List.nodup_cons.mp hnd).1
    have hm64t : ∀ x ∈ t, m x < 2 ^ 64 :=
      fun x hx => hm64 x (List.mem_cons_of_mem r hx)
    have hdisjt : ∀ x ∈ t, ∀ x' ∈ t, x ≠ x' → m x &&& m x' = 0 :=
      fun x hx x' hx' hne =>
        hdisj x (List.mem_cons_of_mem r hx) x' (List.mem_cons_of_mem r hx') hne
    have hmr64 : m r < 2 ^ 64 := hm64 r (List.mem_cons_self r t)
    have hUr : U &&& m r = 0 := hU r (List.mem_cons_self r t)
    have hLU : linesUnion m b0 (r :: t)
        = if b0 &&& m r == m r then m r ||| linesUnion m b0 t else linesUnion m b0 t := by
      simp only [linesUnion, List.foldr_cons]
    simp only [List.foldl_cons]
    by_cases htest : b0 &&& m r == m r
    · have htest' : (b0 &&& (FULL_BOARD ^^^ U)) &&& m r == m r := by
        rw [beq_iff_eq]
        exact (masked_test_iff b0 U (m r) hUr hU64 hmr64).mpr (beq_iff_eq.mp htest)
      rw [show clearLineStep (m r) (b0 &&& (FULL_BOARD ^^^ U), n)
          = ((b0 &&& (FULL_BOARD ^^^ U)) &&& (FULL_BOARD ^^^ m r), n + 1) by
        unfold clearLineStep
        rw [if_pos htest']]
      rw [masked_and_xor b0 U (m r) hU64 hmr64]
      rw [iht hndt hm64t hdisjt (U ||| m r) (n + 1) b0
        (Nat.or_lt_two_pow hU64 hmr64)
        (fun x hx => or_and_eq_zero U (m r) (m x)
          (hU x (List.mem_cons_of_mem r hx))
          (hdisj r (List.mem_cons_self r t) x (List.mem_cons_of_mem r hx)
            (fun he => hrnt (he ▸ hx))))]
      rw [hLU, if_pos htest, Nat.lor_assoc]
      refine congrArg₂ Prod.mk rfl ?_
      rw [List.countP_cons, if_pos htest]
      omega
    · have htest' : ¬((b0 &&& (FULL_BOARD ^^^ U)) &&& m r == m r) := by
        rw [beq_iff_eq]
        intro hcon
        exact htest (beq_iff_eq.mpr ((masked_test_iff b0 U (m r) hUr hU64 hmr64).mp hcon))
      rw [show clearLineStep (m r) (b0 &&& (FULL_BOARD ^^^ U), n)
          = (b0 &&& (FULL_BOARD ^^^ U), n) by
        unfold clearLineStep
        rw [if_neg htest']]
      rw [iht hndt hm64t hdisjt U n b0 hU64
        (fun x hx => hU x (List.mem_cons_of_mem r hx))]
      rw [hLU, if_neg htest]
      refine congrArg₂ Prod.mk rfl ?_
      rw [List.countP_cons, if_neg htest]
      omega

lemma simulatePlace_spec (board piece : Nat) (hb : board < 2 ^ 64)
    (hp : piece < 2 ^ 64) :
    simulatePlace board piece
      = (afterRows (board ||| piece) &&&
           (FULL_BOARD ^^^
             linesUnion colMask (afterRows (board ||| piece)) (List.range 8)),
         (List.range 8).countP
             (fun r => (board ||| piece) &&& rowMask r == rowMask r)
           + (List.range 8).countP
             (fun c => afterRows (board ||| piece) &&& colMask c == colMask c)) := by
  have hb064 : board ||| piece < 2 ^ 64 := Nat.or_lt_two_pow hb hp
  have hrow8 : ∀ r < 8, rowMask r < 2 ^ 64 := by decide
  have hcol8 : ∀ c < 8, colMask c < 2 ^ 64 := by decide
  have hrowd : ∀ r < 8, ∀ r' < 8, r ≠ r' → rowMask r &&& rowMask r' = 0 := by decide
  have hcold : ∀ c < 8, ∀ c' < 8, c ≠ c' → colMask c &&& colMask c' = 0 := by decide
  have hstart : ∀ b : Nat, b < 2 ^ 64 → b = b &&& (FULL_BOARD ^^^ 0) := by
    intro b hb'
    rw [Nat.xor_zero, and_FULL_BOARD b hb']
  have hrows := clear_fold rowMask (List.range 8) (List.nodup_range 8)
    (fun r hr => hrow8 r (List.mem_range.mp hr))
    (fun r hr r' hr' hne =>
      hrowd r (List.mem_range.mp hr) r' (List.mem_range.mp hr') hne)
    0 0 (board ||| piece) (by norm_num) (fun r _ => Nat.zero_and _)
  have hafter64 : afterRows (board ||| piece) < 2 ^ 64 :=
    lt_of_le_of_lt Nat.and_le_left hb064
  have hcols := clear_fold colMask (List.range 8) (List.nodup_range 8)
    (fun c hc => hcol8 c (List.mem_range.mp hc))
    (fun c hc c' hc' hne =>
      hcold c (List.mem_range.mp hc) c' (List.mem_range.mp hc') hne)
    0 ((List.range 8).countP
        (fun r => (board ||| piece) &&& rowMask r == rowMask r))
    (afterRows (board ||| piece)) (by norm_num) (fun c _ => Nat.zero_and _)
  rw [show simulatePlace board piece
      = (List.range 8).foldl (fun st c => clearLineStep (colMask c) st)
          ((List.range 8).foldl (fun st r => clearLineStep (rowMask r) st)
            (board ||| piece, 0)) from rfl]
  conv_lhs => rw [hstart (board ||| piece) hb064]
  rw [hrows, Nat.zero_add, Nat.zero_or]
  rw [show (board ||| piece) &&&
      (FULL_BOARD ^^^ linesUnion rowMask (board ||| piece) (List.range 8))
      = afterRows (board ||| piece) from rfl]
  conv_lhs => rw [hstart (afterRows (board ||| piece)) hafter64]
  rw [hcols, Nat.zero_or]

lemma rowMask_testBit (r k : Nat) :
    (rowMask r).testBit k = decide (8 * r ≤ k ∧ k < 8 * r + 8) := by
  unfold rowMask ROW_MASK
  rw [Nat.testBit_shiftLeft, testBit_255]
  rw [Bool.eq_iff_iff]
  simp only [Bool.and_eq_true, decide_eq_true_eq]
  omega

lemma colMask_testBit (c k : Nat) :
    (colMask c).testBit k
      = decide (c ≤ k ∧ k - c < 64 ∧ (k - c) % 8 = 0) := by
  unfold colMask
  rw [Nat.testBit_shiftLeft, testBit_BROADCAST]
  rw [Bool.eq_iff_iff]
  simp only [Bool.and_eq_true, decide_eq_true_eq]

lemma rowFull_iff_forall (b r : Nat) :
    rowFull b r = true ↔ ∀ j, j < 8 → b.testBit (8 * r + j) = true := by
  unfold rowFull
  simp only [Bool.and_eq_true]
  constructor
  · intro h j hj
    interval_cases j <;> simp_all
  · intro h
    refine ⟨⟨⟨⟨⟨⟨⟨?_, ?_⟩, ?_⟩, ?_⟩, ?_⟩, ?_⟩, ?_⟩, ?_⟩ <;>
      first
        | simpa using h 0 (by norm_num)
        | exact h 1 (by norm_num)
        | exact h 2 (by norm_num)
        | exact h 3 (by norm_num)
        | exact h 4 (by norm_num)
        | exact h 5 (by norm_num)
        | exact h 6 (by norm_num)
        | exact h 7 (by norm_num)

lemma colFull_iff_forall (b c : Nat) :
    colFull b c = true ↔ ∀ i, i < 8 → b.testBit (8 * i + c) = true := by
  unfold colFull
  simp only [Bool.and_eq_true]
  constructor
  · intro h i hi
    interval_cases i <;> simp_all
  · intro h
    refine ⟨⟨⟨⟨⟨⟨⟨?_, ?_⟩, ?_⟩, ?_⟩, ?_⟩, ?_⟩, ?_⟩, ?_⟩ <;>
      first
        | simpa using h 0 (by norm_num)
        | simpa using h 1 (by norm_num)
        | simpa using h 2 (by norm_num)
        | simpa using h 3 (by norm_num)
        | simpa using h 4 (by norm_num)
        | simpa using h 5 (by norm_num)
        | simpa using h 6 (by norm_num)
        | simpa using h 7 (by norm_num)

lemma rowMask_full_iff (b r : Nat) :
    (b &&& rowMask r == rowMask r) = rowFull b r := by
  rw [Bool.eq_iff_iff, beq_iff_eq, rowFull_iff_forall]
  constructor
  · intro h j hj
    have hpt := congrArg (fun x => x.testBit (8 * r + j)) h
    simp only [Nat.testBit_and, rowMask_testBit] at hpt
    rw [show decide (8 * r ≤ 8 * r + j ∧ 8 * r + j < 8 * r + 8) = true by
      rw [decide_eq_true_eq]; omega] at hpt
    simpa using hpt
  · intro h
    apply Nat.eq_of_testBit_eq
    intro k
    simp only [Nat.testBit_and, rowMask_testBit]
    by_cases hk : 8 * r ≤ k ∧ k < 8 * r + 8
    · have hb := h (k - 8 * r) (by omega)
      rw [show 8 * r + (k - 8 * r) = k by omega] at hb
      simp [hk, hb]
    · simp [hk]

lemma colMask_full_iff (b c : Nat) (hc : c < 8) :
    (b &&& colMask c == colMask c) = colFull b c := by
  rw [Bool.eq_iff_iff, beq_iff_eq, colFull_iff_forall]
  constructor
  · intro h i hi
    have hpt := congrArg (fun x => x.testBit (8 * i + c)) h
    simp only [Nat.testBit_and, colMask_testBit] at hpt
    rw [show decide (c ≤ 8 * i + c ∧ 8 * i + c - c < 64 ∧ (8 * i + c - c) % 8 = 0)
        = true by rw [decide_eq_true_eq]; omega] at hpt
    simpa using hpt
  · intro h
    apply Nat.eq_of_testBit_eq
    intro k
    simp only [Nat.testBit_and, colMask_testBit]
    by_cases hk : c ≤ k ∧ k - c < 64 ∧ (k - c) % 8 = 0
    · have hb := h ((k - c) / 8) (by omega)
      rw [show 8 * ((k - c) / 8) + c = k by omega] at hb
      simp [hk, hb]
    · simp [hk]

lemma rowsUnion_testBit (b k : Nat) (hk : k < 64) :
    (linesUnion rowMask b (List.range 8)).testBit k = rowFull b (k / 8) := by
  rw [linesUnion_testBit, Bool.eq_iff_iff]
  simp only [List.any_eq_true, List.mem_range, Bool.and_eq_true]
  constructor
  · rintro ⟨r, hr8, htest, hbit⟩
    rw [rowMask_testBit] at hbit
    rw [rowMask_full_iff] at htest
    rw [show k / 8 = r by
      simp only [decide_eq_true_eq] at hbit
      omega]
    exact htest
  · intro h
    exact ⟨k / 8, by omega, by rw [rowMask_full_iff]; exact h,
      by rw [rowMask_testBit, decide_eq_true_eq]; omega⟩

lemma colsUnion_testBit (b k : Nat) (hk : k < 64) :
    (linesUnion colMask b (List.range 8)).testBit k = colFull b (k % 8) := by
  rw [linesUnion_testBit, Bool.eq_iff_iff]
  simp only [List.any_eq_true, List.mem_range, Bool.and_eq_true]
  constructor
  · rintro ⟨c, hc8, htest, hbit⟩
    rw [colMask_testBit] at hbit
    rw [colMask_full_iff _ _ hc8] at htest
    rw [show k % 8 = c by
      simp only [decide_eq_true_eq] at hbit
      omega]
    exact htest
  · intro h
    exact ⟨k % 8, by omega, by rw [colMask_full_iff _ _ (by omega)]; exact h,
      by rw [colMask_testBit, decide_eq_true_eq]; omega⟩

lemma rowsUnion_zero (b : Nat) (h : ∀ r, r < 8 → rowFull b r = false) :
    linesUnion rowMask b (List.range 8) = 0 := by
  apply Nat.eq_of_testBit_eq
  intro k
  rw [linesUnion_testBit, Nat.zero_testBit, List.any_eq_false]
  intro r hr
  rw [List.mem_range] at hr
  rw [rowMask_full_iff, h r hr]
  simp

lemma colsUnion_zero (b : Nat) (h : ∀ c, c < 8 → colFull b c = false) :
    linesUnion colMask b (List.range 8) = 0 := by
  apply Nat.eq_of_testBit_eq
  intro k
  rw [linesUnion_testBit, Nat.zero_testBit, List.any_eq_false]
  intro c hc
  rw [List.mem_range] at hc
  rw [colMask_full_iff _ _ hc, h c hc]
  simp

lemma and_testBit_subset (a c k : Nat) (h : (a &&& c).testBit k = true) :
    a.testBit k = true := by
  rw [Nat.testBit_and] at h
  exact (Bool.and_eq_true _ _ |>.mp h).1

/-- C8 counterexample: on the occupancy whose free cells are (0,5),(0,6),(0,7)
of an otherwise full row 0 and full column 0, placing the 3x1 line at (0,5)
completes a full row and a full column simultaneously;
`SmartStrategy::simulatePlace` clears only the row (its column test runs
against the already-row-cleared board) and returns 1, while the bit-parallel
`placeAndClear` clears both and returns 2. -/
theorem c8_counterexample :
    simulatePlace 0x010101010101011F ((getPiece 4).shiftTo 0 5)
      ≠ placeAndClear 0x010101010101011F ((getPiece 4).shiftTo 0 5) := by decide

/-- C8 (amended): the bit-parallel `placeAndClear` and the per-line-mask loop
`simulatePlace` produce the identical occupancy and line count whenever the
post-placement board does not contain a full row and a full column at the
same time; when it does, `simulatePlace` clears the full rows first and then
misses every column that was only full before the rows were removed. -/
theorem c8_simulatePlace_equiv (board piece : Nat)
    (hb : board < 2 ^ 64) (hp : piece < 2 ^ 64)
    (h : ¬((∃ r, r < 8 ∧ rowFull (board ||| piece) r = true) ∧
           (∃ c, c < 8 ∧ colFull (board ||| piece) c = true))) :
    simulatePlace board piece = placeAndClear board piece := by
  have hb064 : board ||| piece < 2 ^ 64 := Nat.or_lt_two_pow hb hp
  rw [simulatePlace_spec board piece hb hp]
  rw [show placeAndClear board piece = clearFullLines (board ||| piece) from rfl]
  rcases not_and_or.mp h with hnr | hnc
  · have hnr' : ∀ r, r < 8 → rowFull (board ||| piece) r = false := by
      intro r hr
      by_cases hx : rowFull (board ||| piece) r
      · exact absurd ⟨r, hr, hx⟩ hnr
      · simpa using hx
    have hRU : linesUnion rowMask (board ||| piece) (List.range 8) = 0 :=
      rowsUnion_zero _ hnr'
    have hafter : afterRows (board ||| piece) = board ||| piece := by
      unfold afterRows
      rw [hRU, Nat.xor_zero, and_FULL_BOARD _ hb064]
    rw [hafter]
    refine Prod.ext_iff.mpr ⟨?_, ?_⟩
    · apply Nat.eq_of_testBit_eq
      intro k
      rw [clearFullLines_fst_testBit]
      by_cases hk : k < 64
      · simp only [Nat.testBit_and, Nat.testBit_xor, testBit_FULL_BOARD,
          decide_eq_true hk, Bool.true_xor, colsUnion_testBit _ k hk,
          hnr' (k / 8) (by omega)]
        cases (board ||| piece).testBit k <;>
          cases colFull (board ||| piece) (k % 8) <;> rfl
      · have hbb : (board ||| piece).testBit k = false :=
          Nat.testBit_lt_two_pow (by
            calc board ||| piece < 2 ^ 64 := hb064
              _ ≤ 2 ^ k := Nat.pow_le_pow_right (by norm_num) (by omega))
        simp [hk, hbb]
    · dsimp only
      rw [clearFullLines_snd]
      have hcr : (List.range 8).countP
            (fun r => (board ||| piece) &&& rowMask r == rowMask r)
          = (List.range 8).countP (fun r => rowFull (board ||| piece) r) :=
        List.countP_congr (fun r hr => by rw [rowMask_full_iff])
      have hcc : (List.range 8).countP
            (fun c => (board ||| piece) &&& colMask c == colMask c)
          = (List.range 8).countP (fun c => colFull (board ||| piece) c) :=
        List.countP_congr (fun c hc => by
          rw [colMask_full_iff _ _ (List.mem_range.mp hc)])
      rw [hcr, hcc]
      exact Nat.add_comm _ _
  · have hnc' : ∀ c, c < 8 → colFull (board ||| piece) c = false := by
      intro c hc
      by_cases hx : colFull (board ||| piece) c
      · exact absurd ⟨c, hc, hx⟩ hnc
      · simpa using hx
    have hafter64 : afterRows (board ||| piece) < 2 ^ 64 :=
      lt_of_le_of_lt Nat.and_le_left hb064
    have hsub : ∀ k, (afterRows (board ||| piece)).testBit k = true →
        (board ||| piece).testBit k = true :=
      fun k hk => and_testBit_subset _ _ k hk
    have hnc1 : ∀ c, c < 8 → colFull (afterRows (board ||| piece)) c = false := by
      intro c hc
      by_cases hx : colFull (afterRows (board ||| piece)) c
      · exfalso
        have := colFull_of_subset _ _ c hsub hx
        rw [hnc' c hc] at this
        simp at this
      · simpa using hx
    have hCU : linesUnion colMask (afterRows (board ||| piece)) (List.range 8) = 0 :=
      colsUnion_zero _ hnc1
    rw [hCU, Nat.xor_zero, and_FULL_BOARD _ hafter64]
    refine Prod.ext_iff.mpr ⟨?_, ?_⟩
    · apply Nat.eq_of_testBit_eq
      intro k
      rw [clearFullLines_fst_testBit]
      unfold afterRows
      by_cases hk : k < 64
      · simp only [Nat.testBit_and, Nat.testBit_xor, testBit_FULL_BOARD,
          decide_eq_true hk, Bool.true_xor, rowsUnion_testBit _ k hk,
          hnc' (k % 8) (by omega)]
        cases (board ||| piece).testBit k <;>
          cases rowFull (board ||| piece) (k / 8) <;> rfl
      · have hbb : (board ||| piece).testBit k = false :=
          Nat.testBit_lt_two_pow (by
            calc board ||| piece < 2 ^ 64 := hb064
              _ ≤ 2 ^ k := Nat.pow_le_pow_right (by norm_num) (by omega))
        simp [hk, hbb]
    · dsimp only
      rw [clearFullLines_snd]
      have hcr : (List.range 8).countP
            (fun r => (board ||| piece) &&& rowMask r == rowMask r)
          = (List.range 8).countP (fun r => rowFull (board ||| piece) r) :=
        List.countP_congr (fun r hr => by rw [rowMask_full_iff])
      have hcc1 : (List.range 8).countP
            (fun c => afterRows (board ||| piece) &&& colMask c == colMask c) = 0 := by
        rw [List.countP_eq_zero]
        intro c hc
        rw [colMask_full_iff _ _ (List.mem_range.mp hc), hnc1 c (List.mem_range.mp hc)]
        simp
      have hcc0 : (List.range 8).countP (fun c => colFull (board ||| piece) c) = 0 := by
        rw [List.countP_eq_zero]
        intro c hc
        rw [hnc' c (List.mem_range.mp hc)]
        simp
      rw [hcr, hcc1, hcc0]
      omega

/-- Witness for C8 (amended): empty board, 2x2 square at the origin. -/
theorem c8_witness :
    simulatePlace 0 ((getPiece 0).shiftTo 0 0)
      = placeAndClear 0 ((getPiece 0).shiftTo 0 0) :=
  c8_simulatePlace_equiv 0 ((getPiece 0).shiftTo 0 0) (by decide) (by decide)
    (by decide)

end BlockGame
